import Mathlib

/-!
Shallow embedding of `MyClassProject/src/TaskMaster.cpp` (a single-file C++
task manager).  C++ `std::string` is modelled as `List Char`; the scoped
enums `Category`, `Priority`, `Status` are modelled by their underlying
`Int` values (`Work = 1, Personal = 2, Urgent = 3`, `Low = 1, Medium = 2,
High = 3`, `Pending = 1, InProgress = 2, Completed = 3`) because the C++
code stores `static_cast` of arbitrary user-supplied integers into these
fields.  `std::getline` with a delimiter and `std::stoi` are modelled
faithfully, including getline's failure at end of input (a trailing
delimiter yields no extra empty token) and stoi's whitespace/sign/digit
prefix parse, which throws (modelled as `none`) when no digit is found.
-/

namespace TaskMaster

/-- C++ `std::string` as a list of characters. -/
abbrev Str := List Char

/-- The decimal digit characters, as written by `operator<<` on `int`. -/
def digitChar : Nat → Char
  | 0 => '0'
  | 1 => '1'
  | 2 => '2'
  | 3 => '3'
  | 4 => '4'
  | 5 => '5'
  | 6 => '6'
  | 7 => '7'
  | 8 => '8'
  | 9 => '9'
  | _ => '*'

/-- Numeric value of a digit character (used by the `stoi` model). -/
def charToDigit (c : Char) : Nat := c.toNat - 48

/-- `isdigit` for the characters `stoi` consumes. -/
def isDigitCh (c : Char) : Bool := decide (48 ≤ c.toNat) && decide (c.toNat ≤ 57)

/-- `isspace` in the default locale, as skipped by `std::stoi`. -/
def isSpaceCh (c : Char) : Bool :=
  (c == ' ') || (c == '\t') || (c == '\n') || (c == '\x0b') || (c == '\x0c') || (c == '\r')

/-- Big-endian decimal rendering of a `Nat`, with explicit fuel so that the
definition is structural and kernel-reducible. -/
def natToCharsFuel : Nat → Nat → List Char
  | 0, _ => []
  | f + 1, n =>
    if n < 10 then [digitChar n]
    else natToCharsFuel f (n / 10) ++ [digitChar (n % 10)]

/-- Decimal rendering of a `Nat` (fuel `n + 1` always suffices). -/
def natToChars (n : Nat) : List Char := natToCharsFuel (n + 1) n

/-- Decimal rendering of an `int` as produced by `oss << id` in
`Task::serialize`. -/
def intToChars (i : Int) : List Char :=
  if i < 0 then '-' :: natToChars i.natAbs else natToChars i.toNat

/-- Accumulate the value of a big-endian run of digit characters. -/
def digitsVal (s : List Char) : Nat :=
  s.foldl (fun acc c => 10 * acc + charToDigit c) 0

/-- Parse the longest leading run of digits; `none` when there is none
(this is the case in which `std::stoi` throws `invalid_argument`). -/
def parseDigits (s : List Char) : Option Nat :=
  let ds := s.takeWhile isDigitCh
  if ds.isEmpty then none else some (digitsVal ds)

/-- Model of `std::stoi`: skip leading whitespace, read an optional sign,
then a nonempty digit run; `none` models the uncaught exception that
aborts the program in `Task::deserialize`. -/
def stoi (s : List Char) : Option Int :=
  match s.dropWhile isSpaceCh with
  | [] => none
  | c :: rest =>
    if c == '-' then (parseDigits rest).map (fun n => -(n : Int))
    else if c == '+' then (parseDigits rest).map (fun n => (n : Int))
    else (parseDigits (c :: rest)).map (fun n => (n : Int))

/-- `stringToCategory` from the source: `"Work" → Work`, `"Personal" →
Personal`, anything else → `Urgent`. -/
def stringToCategory (s : Str) : Int :=
  if s = "Work".toList then 1 else if s = "Personal".toList then 2 else 3

/-- `categoryToString` from the source (switch with default `"Unknown"`). -/
def categoryToString (n : Int) : Str :=
  if n = 1 then "Work".toList
  else if n = 2 then "Personal".toList
  else if n = 3 then "Urgent".toList
  else "Unknown".toList

/-- `stringToPriority` from the source. -/
def stringToPriority (s : Str) : Int :=
  if s = "Low".toList then 1 else if s = "Medium".toList then 2 else 3

/-- `priorityToString` from the source. -/
def priorityToString (n : Int) : Str :=
  if n = 1 then "Low".toList
  else if n = 2 then "Medium".toList
  else if n = 3 then "High".toList
  else "Unknown".toList

/-- `stringToStatus` from the source. -/
def stringToStatus (s : Str) : Int :=
  if s = "Pending".toList then 1 else if s = "In Progress".toList then 2 else 3

/-- `statusToString` from the source. -/
def statusToString (n : Int) : Str :=
  if n = 1 then "Pending".toList
  else if n = 2 then "In Progress".toList
  else if n = 3 then "Completed".toList
  else "Unknown".toList

/-- The `Task` class: public data members only.  `category`, `priority`,
`status` hold the underlying `int` value of the scoped enums (the C++ code
can store out-of-range values through `static_cast`). -/
structure Task where
  id : Int
  title : Str
  description : Str
  category : Int
  priority : Int
  dueDate : Str
  status : Int
deriving DecidableEq

/-- The `Task()` default constructor:
`id(0), category(Work), priority(Low), status(Pending)`, empty strings. -/
def defaultTask : Task :=
  { id := 0, title := [], description := [], category := 1, priority := 1,
    dueDate := [], status := 1 }

/-- `Task::serialize`: join the seven fields with `'|'`, enums through
their `...ToString` names, the id in decimal. -/
def serialize (t : Task) : Str :=
  intToChars t.id ++ '|' ::
    (t.title ++ '|' ::
      (t.description ++ '|' ::
        (categoryToString t.category ++ '|' ::
          (priorityToString t.priority ++ '|' ::
            (t.dueDate ++ '|' :: statusToString t.status)))))

/-- Split a character list at every occurrence of `c` (the underlying
splitting of repeated `std::getline(iss, tok, c)` calls, before the
end-of-input adjustment). -/
def splitOnChar (c : Char) : List Char → List (List Char)
  | [] => [[]]
  | x :: xs =>
    match splitOnChar c xs with
    | [] => if x = c then [[], []] else [[x]]
    | h :: t => if x = c then [] :: h :: t else (x :: h) :: t

/-- The exact sequence of tokens produced by repeated
`std::getline(stream, tok, c)` until failure: on empty input no token is
produced, and a trailing delimiter produces no final empty token (the
last `getline` fails at end of input). -/
def getlineTokens (c : Char) (s : List Char) : List (List Char) :=
  if s = [] then []
  else if s.getLast? = some c then (splitOnChar c s).dropLast
  else splitOnChar c s

/-- Whether the first FAILING `getline` call still erases its target:
`std::getline` erases the target only when its sentry succeeds, which at
the `(k+1)`-th call (after `k` successful reads) is the case exactly when
the stream is not yet at end of file — for an empty input, or when the
input ends with the delimiter (the last successful read consumed the
delimiter without touching end of file).  Every later call's sentry fails
immediately and leaves its target untouched. -/
def erasesAtEnd (s : Str) : Bool :=
  s.isEmpty || (s.getLast? == some '|')

/-- The value a `getline` target holds after the read of (0-indexed)
token position `j`: the `j`-th token when that read succeeded; otherwise
the erased empty string when this is the first failing call (position
`toks.length`) and that call's sentry still succeeded (`er`), else the
target's previous contents `prev` (the sentry fails and `getline` does
nothing). -/
def tokenAt (toks : List Str) (er : Bool) (prev : Str) (j : Nat) : Str :=
  match toks.get? j with
  | some t => t
  | none => if er && (toks.length == j) then [] else prev

/-- Contents of the reused local `token` variable after the category read
(call 4, token position 3); its previous contents are the id field read
at call 1. -/
def catTok (toks : List Str) (er : Bool) : Str :=
  tokenAt toks er (toks.headD []) 3

/-- Contents of `token` after the priority read (call 5, position 4). -/
def priTok (toks : List Str) (er : Bool) : Str :=
  tokenAt toks er (catTok toks er) 4

/-- Contents of `token` after the status read (call 7, position 6); call
6 reads into the `dueDate` member and does not touch `token`. -/
def statTok (toks : List Str) (er : Bool) : Str :=
  tokenAt toks er (priTok toks er) 6

/-- `Task::deserialize` (as called on a default-constructed `Task`, its
only call site): split the line on `'|'` via `getline`; `stoi` the first
token (`none` models the uncaught exception).  There is no check that the
line has exactly 7 fields: extra fields are ignored, and on a short line
the string members keep the constructor's empty strings while the enum
assignments still run, applying `stringToX` to whatever the reused local
`token` variable last held (the id field's text, or an erased empty
string), which maps any unrecognized name to the LAST enum value. -/
def deserialize (s : Str) : Option Task :=
  match stoi ((getlineTokens '|' s).headD []) with
  | none => none
  | some n =>
    some { id := n,
           title := (getlineTokens '|' s).getD 1 [],
           description := (getlineTokens '|' s).getD 2 [],
           category := stringToCategory (catTok (getlineTokens '|' s) (erasesAtEnd s)),
           priority := stringToPriority (priTok (getlineTokens '|' s) (erasesAtEnd s)),
           dueDate := (getlineTokens '|' s).getD 5 [],
           status := stringToStatus (statTok (getlineTokens '|' s) (erasesAtEnd s)) }

/-- `TaskManager::validateDate`: length 10 and dashes at indices 4 and 7;
nothing else is checked. -/
def validateDate (d : Str) : Bool :=
  (d.length == 10) && (d.getD 4 ' ' == '-') && (d.getD 7 ' ' == '-')

/-- The `TaskManager` state: the task vector and the `nextId` counter. -/
structure Manager where
  tasks : List Task
  nextId : Int
deriving DecidableEq

/-- `TaskManager()` : empty vector, `nextId(1)`. -/
def freshManager : Manager := { tasks := [], nextId := 1 }

/-- `TaskManager::createTask`.  The interactive inputs are parameters:
title, description, the raw integer category and priority choices (stored
through `static_cast` with no range check), and the successive due-date
attempts of the re-prompt loop; `none` models the loop never being exited
because no attempt passes `validateDate`.  The status is unconditionally
set to `Pending`, the id to `nextId` (which is then incremented), and the
task is appended at the back of the vector. -/
def createTask (m : Manager) (title description : Str)
    (catChoice priChoice : Int) (dates : List Str) : Option Manager :=
  match dates.find? validateDate with
  | none => none
  | some d =>
    some { tasks := m.tasks ++
             [{ id := m.nextId, title := title, description := description,
                category := catChoice, priority := priChoice,
                dueDate := d, status := 1 }],
           nextId := m.nextId + 1 }

/-- Update the first element satisfying `p` (the record reached through
the `std::find_if` iterator in `editTask`). -/
def updateFirst (p : α → Bool) (f : α → α) : List α → List α
  | [] => []
  | x :: xs => if p x then f x :: xs else x :: updateFirst p f xs

/-- The field-by-field mutation applied to the found task in
`TaskManager::editTask`: empty text inputs keep the current value;
category/priority/status choices are applied only when within `1..3`; a
nonempty due date is applied only when it passes `validateDate`. -/
def editFields (newTitle newDescription : Str) (catChoice priChoice : Int)
    (newDate : Str) (statusChoice : Int) (t : Task) : Task :=
  { t with
    title := if newTitle.isEmpty then t.title else newTitle,
    description := if newDescription.isEmpty then t.description else newDescription,
    category := if 1 ≤ catChoice ∧ catChoice ≤ 3 then catChoice else t.category,
    priority := if 1 ≤ priChoice ∧ priChoice ≤ 3 then priChoice else t.priority,
    dueDate := if newDate.isEmpty then t.dueDate
               else if validateDate newDate then newDate else t.dueDate,
    status := if 1 ≤ statusChoice ∧ statusChoice ≤ 3 then statusChoice else t.status }

/-- `TaskManager::editTask`: look the id up with `find_if`; when absent
report not-found (`false`) and change nothing; when present mutate the
first matching record in place. -/
def editTask (m : Manager) (i : Int) (newTitle newDescription : Str)
    (catChoice priChoice : Int) (newDate : Str) (statusChoice : Int) :
    Manager × Bool :=
  if m.tasks.any (fun t => t.id == i) then
    let f := editFields newTitle newDescription catChoice priChoice newDate statusChoice
    ({ m with tasks := updateFirst (fun t => t.id == i) f m.tasks }, true)
  else (m, false)

/-- `TaskManager::deleteTask`: `remove_if`/`erase` removes every record
whose id matches; the not-found branch is taken exactly when no record
matched. -/
def deleteTask (m : Manager) (i : Int) : Manager × Bool :=
  ({ m with tasks := m.tasks.filter (fun t => !(t.id == i)) },
   m.tasks.any (fun t => t.id == i))

/-- `TaskManager::saveTasks`, successful path: the file contents written,
one serialized task per line, each line terminated by `'\n'`. -/
def saveContent (tasks : List Task) : Str :=
  (tasks.map (fun t => serialize t ++ ['\n'])).flatten

/-- The load loop's per-line parsing: deserialize each line in order;
`none` on the first line whose id fails to parse (the uncaught `stoi`
exception aborts the program, so nothing after matters). -/
def parseLines : List Str → Option (List Task)
  | [] => some []
  | l :: ls =>
    match deserialize l with
    | none => none
    | some t =>
      match parseLines ls with
      | none => none
      | some ts => some (t :: ts)

/-- The max-id fold of the load loop: `maxId` starts at `0` and each
task's id replaces it when strictly greater. -/
def maxIdFold (ts : List Task) : Int :=
  ts.foldl (fun acc t => if t.id > acc then t.id else acc) 0

/-- `TaskManager::loadTasks`, successful-open path, as a function of the
file contents: `tasks.clear()` then parse the nonblank lines in order
(`getline` on `'\n'`, empty lines skipped), then `nextId = maxId + 1`.
The prior manager state does not influence the result. -/
def loadTasks (_m : Manager) (content : Str) : Option Manager :=
  match parseLines ((getlineTokens '\n' content).filter (fun l => !l.isEmpty)) with
  | none => none
  | some ts => some { tasks := ts, nextId := maxIdFold ts + 1 }

/-- Join fields with the `'|'` separator (what `Task::serialize` does to
its seven fields, stated generically for the parsing theorems). -/
def joinPipe : List Str → Str
  | [] => []
  | [f] => f
  | f :: fs => f ++ '|' :: joinPipe fs

/-- One store operation of the interactive loop, with all its interactive
inputs attached.  `save` does not change the in-memory state; `load`
carries the contents of the file that was read. -/
inductive Op where
  | create (title description : Str) (catChoice priChoice : Int) (dates : List Str)
  | edit (i : Int) (newTitle newDescription : Str) (catChoice priChoice : Int)
      (newDate : Str) (statusChoice : Int)
  | del (i : Int)
  | save
  | load (content : Str)
deriving DecidableEq

/-- Whether an operation is a load. -/
def isLoad : Op → Bool
  | .load _ => true
  | _ => false

/-- Apply one operation to the manager state; `none` models the program
not completing the operation (create with no valid date, or the fatal
parse abort inside load). -/
def applyOp (m : Manager) : Op → Option Manager
  | .create t d c p ds => createTask m t d c p ds
  | .edit i nt nd cc pc ndate sc => some (editTask m i nt nd cc pc ndate sc).1
  | .del i => some (deleteTask m i).1
  | .save => some m
  | .load content => loadTasks m content

/-- Run a sequence of operations. -/
def runOps : Manager → List Op → Option Manager
  | m, [] => some m
  | m, op :: ops =>
    match applyOp m op with
    | none => none
    | some m' => runOps m' ops

/-- The interactive inputs of one `createTask` call. -/
structure CreateInput where
  title : Str
  description : Str
  catChoice : Int
  priChoice : Int
  dates : List Str
deriving DecidableEq

/-- Run a sequence of `createTask` calls. -/
def runCreates : Manager → List CreateInput → Option Manager
  | m, [] => some m
  | m, inp :: inps =>
    match createTask m inp.title inp.description inp.catChoice inp.priChoice inp.dates with
    | none => none
    | some m' => runCreates m' inps

/-! ### Decimal rendering and `stoi` -/

theorem digitChar_isDigit {d : Nat} (h : d < 10) : isDigitCh (digitChar d) = true := by
  interval_cases d <;> decide

theorem charToDigit_digitChar {d : Nat} (h : d < 10) : charToDigit (digitChar d) = d := by
  interval_cases d <;> decide

theorem isDigit_char_bounds {c : Char} (h : isDigitCh c = true) :
    48 ≤ c.toNat ∧ c.toNat ≤ 57 := by
  simp only [isDigitCh, Bool.and_eq_true, decide_eq_true_eq] at h
  exact h

theorem digit_beq_false {c d : Char} (h : isDigitCh c = true)
    (hd : d.toNat < 48 ∨ 57 < d.toNat) : (c == d) = false := by
  obtain ⟨h1, h2⟩ := isDigit_char_bounds h
  refine beq_eq_false_iff_ne.mpr (fun he => ?_)
  subst he
  omega

theorem digit_ne {c d : Char} (h : isDigitCh c = true)
    (hd : d.toNat < 48 ∨ 57 < d.toNat) : c ≠ d := by
  have := digit_beq_false h hd
  exact beq_eq_false_iff_ne.mp this

theorem digit_not_space {c : Char} (h : isDigitCh c = true) : isSpaceCh c = false := by
  simp only [isSpaceCh]
  rw [digit_beq_false h (by decide), digit_beq_false h (by decide),
    digit_beq_false h (by decide), digit_beq_false h (by decide),
    digit_beq_false h (by decide), digit_beq_false h (by decide)]
  rfl

theorem natToCharsFuel_spec : ∀ f n, n < f →
    natToCharsFuel f n ≠ [] ∧
    (∀ c ∈ natToCharsFuel f n, isDigitCh c = true) ∧
    ∀ a : Nat, (natToCharsFuel f n).foldl (fun acc c => 10 * acc + charToDigit c) a
      = a * 10 ^ (natToCharsFuel f n).length + n := by
  intro f
  induction f with
  | zero => intro n h; omega
  | succ f ih =>
    intro n h
    by_cases h10 : n < 10
    · refine ⟨by simp [natToCharsFuel, h10], ?_, ?_⟩
      · intro c hc
        simp only [natToCharsFuel, if_pos h10, List.mem_singleton] at hc
        subst hc
        exact digitChar_isDigit h10
      · intro a
        simp only [natToCharsFuel, if_pos h10, List.foldl_cons, List.foldl_nil,
          List.length_singleton, pow_one, charToDigit_digitChar h10]
        ring
    · have hd : n / 10 < f := by omega
      obtain ⟨hne, hdig, hfold⟩ := ih (n / 10) hd
      have heq : natToCharsFuel (f + 1) n
          = natToCharsFuel f (n / 10) ++ [digitChar (n % 10)] := by
        simp [natToCharsFuel, h10]
      refine ⟨by simp [heq], ?_, ?_⟩
      · intro c hc
        rw [heq] at hc
        rcases List.mem_append.mp hc with hc1 | hc2
        · exact hdig c hc1
        · rw [List.mem_singleton] at hc2
          subst hc2
          exact digitChar_isDigit (Nat.mod_lt n (by omega))
      · intro a
        rw [heq, List.foldl_append, List.length_append, hfold a]
        simp only [List.foldl_cons, List.foldl_nil, List.length_singleton,
          charToDigit_digitChar (Nat.mod_lt n (by omega))]
        have : a * 10 ^ ((natToCharsFuel f (n / 10)).length + 1)
            = (a * 10 ^ (natToCharsFuel f (n / 10)).length) * 10 := by ring
        rw [this]
        omega

theorem natToChars_ne_nil (n : Nat) : natToChars n ≠ [] :=
  (natToCharsFuel_spec (n + 1) n (by omega)).1

theorem natToChars_digits (n : Nat) : ∀ c ∈ natToChars n, isDigitCh c = true :=
  (natToCharsFuel_spec (n + 1) n (by omega)).2.1

theorem natToChars_foldl (n : Nat) :
    (natToChars n).foldl (fun acc c => 10 * acc + charToDigit c) 0 = n := by
  have := (natToCharsFuel_spec (n + 1) n (by omega)).2.2 0
  simpa using this

theorem takeWhile_all {p : Char → Bool} :
    ∀ {l : List Char}, (∀ c ∈ l, p c = true) → l.takeWhile p = l := by
  intro l
  induction l with
  | nil => intro; rfl
  | cons x xs ih =>
    intro h
    rw [List.takeWhile_cons, h x (List.mem_cons_self x xs), ih (fun c hc => h c (List.mem_cons_of_mem x hc))]
    simp

theorem parseDigits_natToChars (n : Nat) : parseDigits (natToChars n) = some n := by
  unfold parseDigits
  rw [takeWhile_all (natToChars_digits n)]
  have hne := natToChars_ne_nil n
  rw [if_neg (by simpa [List.isEmpty_iff] using hne)]
  rw [digitsVal, natToChars_foldl]

theorem stoi_natToChars (n : Nat) : stoi (natToChars n) = some (n : Int) := by
  obtain ⟨c, cs, hcc⟩ : ∃ c cs, natToChars n = c :: cs := by
    cases h : natToChars n with
    | nil => exact absurd h (natToChars_ne_nil n)
    | cons c cs => exact ⟨c, cs, rfl⟩
  have hc : isDigitCh c = true := natToChars_digits n c (hcc ▸ List.mem_cons_self c cs)
  rw [stoi, hcc, List.dropWhile_cons, digit_not_space hc]
  simp only [Bool.false_eq_true, if_false]
  rw [digit_beq_false hc (by decide), digit_beq_false hc (by decide)]
  simp only [Bool.false_eq_true, if_false, ← hcc, parseDigits_natToChars]
  rfl

theorem stoi_intToChars (i : Int) : stoi (intToChars i) = some i := by
  by_cases h : i < 0
  · rw [intToChars, if_pos h, stoi, List.dropWhile_cons]
    rw [show isSpaceCh '-' = false from rfl]
    simp only [Bool.false_eq_true, if_false]
    rw [show ('-' == '-') = true from rfl]
    simp only [if_true]
    rw [parseDigits_natToChars]
    show some (-(i.natAbs : Int)) = some i
    congr 1
    omega
  · rw [intToChars, if_neg h, stoi_natToChars]
    congr 1
    omega

theorem intToChars_chars {i : Int} {c : Char} (h : c ∈ intToChars i) :
    isDigitCh c = true ∨ c = '-' := by
  unfold intToChars at h
  split at h
  · rcases List.mem_cons.mp h with h1 | h2
    · exact Or.inr h1
    · exact Or.inl (natToChars_digits _ c h2)
  · exact Or.inl (natToChars_digits _ c h)

theorem intToChars_ne_nil (i : Int) : intToChars i ≠ [] := by
  unfold intToChars
  split
  · simp
  · exact natToChars_ne_nil _

theorem intToChars_no_pipe {i : Int} : ∀ c ∈ intToChars i, c ≠ '|' := by
  intro c hc
  rcases intToChars_chars hc with h | h
  · exact digit_ne h (by decide)
  · subst h; decide

theorem intToChars_no_nl {i : Int} : ∀ c ∈ intToChars i, c ≠ '\n' := by
  intro c hc
  rcases intToChars_chars hc with h | h
  · exact digit_ne h (by decide)
  · subst h; decide

/-! ### Splitting on a delimiter -/

theorem splitOnChar_ne_nil (c : Char) (s : List Char) : splitOnChar c s ≠ [] := by
  induction s with
  | nil => simp [splitOnChar]
  | cons x xs ih =>
    rw [splitOnChar]
    split <;> split <;> simp

theorem splitOnChar_no_delim {c : Char} :
    ∀ {a : List Char}, (∀ x ∈ a, x ≠ c) → splitOnChar c a = [a] := by
  intro a
  induction a with
  | nil => intro _; rfl
  | cons x xs ih =>
    intro h
    have hx : x ≠ c := h x (List.mem_cons_self x xs)
    have hxs := ih (fun y hy => h y (List.mem_cons_of_mem x hy))
    rw [splitOnChar, hxs]
    simp [hx]

theorem splitOnChar_append_cons {c : Char} {a : List Char} (h : ∀ x ∈ a, x ≠ c)
    (r : List Char) : splitOnChar c (a ++ c :: r) = a :: splitOnChar c r := by
  induction a with
  | nil =>
    rw [List.nil_append, splitOnChar]
    cases hr : splitOnChar c r with
    | nil => exact absurd hr (splitOnChar_ne_nil c r)
    | cons hh tt => simp
  | cons x xs ih =>
    have hx : x ≠ c := h x (List.mem_cons_self x xs)
    have hxs := ih (fun y hy => h y (List.mem_cons_of_mem x hy))
    rw [List.cons_append, splitOnChar, hxs]
    simp [hx]

theorem getLast?_append_some {α : Type} {xs ys : List α} {c : α}
    (h : ys.getLast? = some c) : (xs ++ ys).getLast? = some c := by
  rw [List.getLast?_append, h]
  rfl

theorem getLast?_mem {α : Type} {l : List α} (h : l ≠ []) :
    ∃ c, l.getLast? = some c ∧ c ∈ l :=
  ⟨l.getLast h, List.getLast?_eq_getLast l h, List.getLast_mem h⟩

/-! ### Joining fields with the pipe separator -/

theorem splitOnChar_joinPipe :
    ∀ {fs : List Str}, fs ≠ [] → (∀ f ∈ fs, ∀ x ∈ f, x ≠ '|') →
      splitOnChar '|' (joinPipe fs) = fs := by
  intro fs
  induction fs with
  | nil => intro h; exact absurd rfl h
  | cons f fs ih =>
    intro _ hp
    cases fs with
    | nil => exact splitOnChar_no_delim (hp f (List.mem_cons_self f []))
    | cons g gs =>
      have hrec := ih (by simp) (fun x hx => hp x (List.mem_cons_of_mem f hx))
      rw [show joinPipe (f :: g :: gs) = f ++ '|' :: joinPipe (g :: gs) from rfl,
        splitOnChar_append_cons (hp f (List.mem_cons_self f (g :: gs))), hrec]

theorem joinPipe_ne_nil_getLast :
    ∀ {fs : List Str}, fs ≠ [] → fs.getLast? ≠ some [] →
      (∀ f ∈ fs, ∀ x ∈ f, x ≠ '|') →
      joinPipe fs ≠ [] ∧ (joinPipe fs).getLast? ≠ some '|' := by
  intro fs
  induction fs with
  | nil => intro h; exact absurd rfl h
  | cons f fs ih =>
    intro _ hl hp
    cases fs with
    | nil =>
      have hf : f ≠ [] := by
        intro he
        exact hl (by rw [he]; rfl)
      obtain ⟨c, hc, hcm⟩ := getLast?_mem hf
      refine ⟨hf, ?_⟩
      show f.getLast? ≠ some '|'
      rw [hc]
      intro he
      exact hp f (List.mem_cons_self f []) c hcm (by injection he)
    | cons g gs =>
      have hl' : (g :: gs).getLast? ≠ some [] := by
        rwa [List.getLast?_cons_cons] at hl
      obtain ⟨hne, hlast⟩ := ih (by simp) hl' (fun x hx => hp x (List.mem_cons_of_mem f hx))
      refine ⟨by simp [joinPipe], ?_⟩
      rw [show joinPipe (f :: g :: gs) = f ++ '|' :: joinPipe (g :: gs) from rfl]
      obtain ⟨c, hc, hcm⟩ := getLast?_mem hne
      obtain ⟨y, ys, hys⟩ : ∃ y ys, joinPipe (g :: gs) = y :: ys := by
        cases hj : joinPipe (g :: gs) with
        | nil => exact absurd hj hne
        | cons y ys => exact ⟨y, ys, rfl⟩
      have hstep : ('|' :: joinPipe (g :: gs)).getLast? = some c := by
        rw [hys, List.getLast?_cons_cons, ← hys, hc]
      rw [getLast?_append_some hstep]
      intro he
      rw [hc] at hlast
      exact hlast (by injection he with h1; rw [h1])

theorem getlineTokens_joinPipe {fs : List Str} (hne : fs ≠ [])
    (hl : fs.getLast? ≠ some []) (hp : ∀ f ∈ fs, ∀ x ∈ f, x ≠ '|') :
    getlineTokens '|' (joinPipe fs) = fs := by
  obtain ⟨h1, h2⟩ := joinPipe_ne_nil_getLast hne hl hp
  rw [getlineTokens, if_neg h1, if_neg h2]
  exact splitOnChar_joinPipe hne hp

/-! ### The enum name strings -/

theorem categoryToString_props (n : Int) :
    (∀ c ∈ categoryToString n, c ≠ '|' ∧ c ≠ '\n') ∧ categoryToString n ≠ [] := by
  unfold categoryToString
  repeat' split
  all_goals decide

theorem priorityToString_props (n : Int) :
    (∀ c ∈ priorityToString n, c ≠ '|' ∧ c ≠ '\n') ∧ priorityToString n ≠ [] := by
  unfold priorityToString
  repeat' split
  all_goals decide

theorem statusToString_props (n : Int) :
    (∀ c ∈ statusToString n, c ≠ '|' ∧ c ≠ '\n') ∧ statusToString n ≠ [] := by
  unfold statusToString
  repeat' split
  all_goals decide

theorem stringToCategory_categoryToString {n : Int} (h1 : 1 ≤ n) (h2 : n ≤ 3) :
    stringToCategory (categoryToString n) = n := by
  interval_cases n <;> decide

theorem stringToPriority_priorityToString {n : Int} (h1 : 1 ≤ n) (h2 : n ≤ 3) :
    stringToPriority (priorityToString n) = n := by
  interval_cases n <;> decide

theorem stringToStatus_statusToString {n : Int} (h1 : 1 ≤ n) (h2 : n ≤ 3) :
    stringToStatus (statusToString n) = n := by
  interval_cases n <;> decide

/-! ### Round trip of `serialize` and `deserialize` -/

theorem serialize_eq_joinPipe (t : Task) :
    serialize t = joinPipe [intToChars t.id, t.title, t.description,
      categoryToString t.category, priorityToString t.priority, t.dueDate,
      statusToString t.status] := rfl

theorem tokens_serialize (t : Task)
    (ht : ∀ c ∈ t.title, c ≠ '|') (hd : ∀ c ∈ t.description, c ≠ '|')
    (hdd : ∀ c ∈ t.dueDate, c ≠ '|') :
    getlineTokens '|' (serialize t) =
      [intToChars t.id, t.title, t.description, categoryToString t.category,
       priorityToString t.priority, t.dueDate, statusToString t.status] := by
  rw [serialize_eq_joinPipe]
  apply getlineTokens_joinPipe
  · simp
  · intro he
    simp only [List.getLast?] at he
    exact (statusToString_props t.status).2 (by injection he)
  · intro f hf
    simp only [List.mem_cons, List.not_mem_nil, or_false] at hf
    rcases hf with rfl | rfl | rfl | rfl | rfl | rfl | rfl
    · exact intToChars_no_pipe
    · exact ht
    · exact hd
    · exact fun c hc => ((categoryToString_props t.category).1 c hc).1
    · exact fun c hc => ((priorityToString_props t.priority).1 c hc).1
    · exact hdd
    · exact fun c hc => ((statusToString_props t.status).1 c hc).1

theorem deserialize_serialize (t : Task)
    (ht : ∀ c ∈ t.title, c ≠ '|') (hd : ∀ c ∈ t.description, c ≠ '|')
    (hdd : ∀ c ∈ t.dueDate, c ≠ '|')
    (hc1 : 1 ≤ t.category) (hc2 : t.category ≤ 3)
    (hp1 : 1 ≤ t.priority) (hp2 : t.priority ≤ 3)
    (hs1 : 1 ≤ t.status) (hs2 : t.status ≤ 3) :
    deserialize (serialize t) = some t := by
  unfold deserialize
  rw [tokens_serialize t ht hd hdd]
  simp only [List.headD_cons, stoi_intToChars, List.getD_cons_zero, List.getD_cons_succ,
    catTok, priTok, statTok, tokenAt, List.get?_cons_zero, List.get?_cons_succ]
  show some _ = some t
  rw [stringToCategory_categoryToString hc1 hc2,
    stringToPriority_priorityToString hp1 hp2,
    stringToStatus_statusToString hs1 hs2]

/-! ### Save followed by load -/

theorem serialize_ne_nil (t : Task) : serialize t ≠ [] := by
  unfold serialize
  intro h
  rw [List.append_eq_nil] at h
  exact intToChars_ne_nil t.id h.1

theorem serialize_no_nl (t : Task)
    (h1 : ∀ c ∈ t.title, c ≠ '\n') (h2 : ∀ c ∈ t.description, c ≠ '\n')
    (h3 : ∀ c ∈ t.dueDate, c ≠ '\n') : ∀ c ∈ serialize t, c ≠ '\n' := by
  intro c hc
  unfold serialize at hc
  simp only [List.mem_append, List.mem_cons] at hc
  rcases hc with h | h | h | h | h | h | h | h | h | h | h | h | h
  · exact intToChars_no_nl c h
  · subst h; decide
  · exact h1 c h
  · subst h; decide
  · exact h2 c h
  · subst h; decide
  · exact ((categoryToString_props t.category).1 c h).2
  · subst h; decide
  · exact ((priorityToString_props t.priority).1 c h).2
  · subst h; decide
  · exact h3 c h
  · subst h; decide
  · exact ((statusToString_props t.status).1 c h).2

theorem saveContent_cons (t : Task) (ts : List Task) :
    saveContent (t :: ts) = serialize t ++ '\n' :: saveContent ts := by
  unfold saveContent
  rw [List.map_cons, List.flatten_cons, List.append_assoc]
  rfl

theorem splitNl_saveContent :
    ∀ {ts : List Task}, (∀ t ∈ ts, ∀ c ∈ serialize t, c ≠ '\n') →
      splitOnChar '\n' (saveContent ts) = ts.map serialize ++ [[]] := by
  intro ts
  induction ts with
  | nil => intro _; rfl
  | cons t ts ih =>
    intro h
    rw [saveContent_cons,
      splitOnChar_append_cons (h t (List.mem_cons_self t ts)),
      ih (fun u hu => h u (List.mem_cons_of_mem t hu)), List.map_cons, List.cons_append]

theorem saveContent_getLast :
    ∀ {ts : List Task}, ts ≠ [] → (saveContent ts).getLast? = some '\n' := by
  intro ts
  induction ts with
  | nil => intro h; exact absurd rfl h
  | cons t ts ih =>
    intro _
    rw [saveContent_cons]
    apply getLast?_append_some
    cases hts : ts with
    | nil => rfl
    | cons u us =>
      have hne : saveContent (u :: us) ≠ [] := by
        rw [saveContent_cons]
        intro he
        rw [List.append_eq_nil] at he
        exact List.cons_ne_nil _ _ he.2
      obtain ⟨y, ys, hys⟩ : ∃ y ys, saveContent (u :: us) = y :: ys := by
        cases hj : saveContent (u :: us) with
        | nil => exact absurd hj hne
        | cons y ys => exact ⟨y, ys, rfl⟩
      rw [hys, List.getLast?_cons_cons, ← hys, ← hts]
      exact ih (by rw [hts]; simp)

theorem getlineTokens_saveContent {ts : List Task}
    (h : ∀ t ∈ ts, ∀ c ∈ serialize t, c ≠ '\n') :
    getlineTokens '\n' (saveContent ts) = ts.map serialize := by
  cases hts : ts with
  | nil => rfl
  | cons t ts' =>
    rw [← hts]
    have hne : saveContent ts ≠ [] := by
      rw [hts, saveContent_cons]
      intro he
      rw [List.append_eq_nil] at he
      exact List.cons_ne_nil _ _ he.2
    rw [getlineTokens, if_neg hne, if_pos (saveContent_getLast (by rw [hts]; simp)),
      splitNl_saveContent h, List.dropLast_concat]

theorem filter_nonempty_serialize (ts : List Task) :
    (ts.map serialize).filter (fun l => !l.isEmpty) = ts.map serialize := by
  apply List.filter_eq_self.mpr
  intro l hl
  obtain ⟨t, _, rfl⟩ := List.mem_map.mp hl
  have := serialize_ne_nil t
  cases h : serialize t with
  | nil => exact absurd h this
  | cons x xs => rfl

/-- The per-record conditions under which the flat-file format is
faithful: no separator or newline inside the free-text fields, and
in-range enum values. -/
def goodFields (t : Task) : Prop :=
  (∀ c ∈ t.title, c ≠ '|' ∧ c ≠ '\n') ∧
  (∀ c ∈ t.description, c ≠ '|' ∧ c ≠ '\n') ∧
  (∀ c ∈ t.dueDate, c ≠ '|' ∧ c ≠ '\n') ∧
  (1 ≤ t.category ∧ t.category ≤ 3) ∧
  (1 ≤ t.priority ∧ t.priority ≤ 3) ∧
  (1 ≤ t.status ∧ t.status ≤ 3)

instance (t : Task) : Decidable (goodFields t) := by
  unfold goodFields
  infer_instance

theorem deserialize_serialize_good {t : Task} (h : goodFields t) :
    deserialize (serialize t) = some t := by
  obtain ⟨h1, h2, h3, h4, h5, h6⟩ := h
  exact deserialize_serialize t (fun c hc => (h1 c hc).1) (fun c hc => (h2 c hc).1)
    (fun c hc => (h3 c hc).1) h4.1 h4.2 h5.1 h5.2 h6.1 h6.2

theorem parseLines_serialize :
    ∀ {ts : List Task}, (∀ t ∈ ts, goodFields t) →
      parseLines (ts.map serialize) = some ts := by
  intro ts
  induction ts with
  | nil => intro _; rfl
  | cons t ts ih =>
    intro h
    rw [List.map_cons, parseLines, deserialize_serialize_good (h t (List.mem_cons_self t ts)),
      ih (fun u hu => h u (List.mem_cons_of_mem t hu))]

theorem loadTasks_saveContent {ts : List Task} (h : ∀ t ∈ ts, goodFields t)
    (m : Manager) :
    loadTasks m (saveContent ts) = some { tasks := ts, nextId := maxIdFold ts + 1 } := by
  have hnl : ∀ t ∈ ts, ∀ c ∈ serialize t, c ≠ '\n' := by
    intro t ht
    obtain ⟨h1, h2, h3, _, _, _⟩ := h t ht
    exact serialize_no_nl t (fun c hc => (h1 c hc).2) (fun c hc => (h2 c hc).2)
      (fun c hc => (h3 c hc).2)
  rw [loadTasks, getlineTokens_saveContent hnl, filter_nonempty_serialize,
    parseLines_serialize h]

/-! ### The max-id fold -/

theorem if_gt_eq_max (a b : Int) : (if b > a then b else a) = max a b := by
  rw [max_def]
  split <;> split <;> omega

theorem maxIdFold_eq_foldl_max (ts : List Task) :
    maxIdFold ts = (ts.map Task.id).foldl max 0 := by
  suffices h : ∀ a : Int, ts.foldl (fun acc t => if t.id > acc then t.id else acc) a
      = (ts.map Task.id).foldl max a from h 0
  induction ts with
  | nil => intro a; rfl
  | cons t ts ih =>
    intro a
    rw [List.foldl_cons, List.map_cons, List.foldl_cons, if_gt_eq_max, ih]

theorem le_foldl_max_self (l : List Int) (a : Int) : a ≤ l.foldl max a := by
  induction l generalizing a with
  | nil => exact le_refl a
  | cons x l ih =>
    rw [List.foldl_cons]
    exact le_trans (le_max_left a x) (ih (max a x))

theorem le_foldl_max_mem {l : List Int} {x : Int} (h : x ∈ l) (a : Int) :
    x ≤ l.foldl max a := by
  induction l generalizing a with
  | nil => exact absurd h (List.not_mem_nil x)
  | cons y l ih =>
    rw [List.foldl_cons]
    rcases List.mem_cons.mp h with rfl | hm
    · exact le_trans (le_max_right a x) (le_foldl_max_self l (max a x))
    · exact ih hm (max a y)

theorem id_le_maxIdFold {ts : List Task} {t : Task} (h : t ∈ ts) :
    t.id ≤ maxIdFold ts := by
  rw [maxIdFold_eq_foldl_max]
  exact le_foldl_max_mem (List.mem_map_of_mem Task.id h) 0

/-! ### Create, edit, delete: basic shapes -/

theorem createTask_some {m : Manager} {title description : Str} {cc pc : Int}
    {dates : List Str} {m' : Manager}
    (h : createTask m title description cc pc dates = some m') :
    ∃ d, dates.find? validateDate = some d ∧ validateDate d = true ∧
      m' = ⟨m.tasks ++ [⟨m.nextId, title, description, cc, pc, d, 1⟩], m.nextId + 1⟩ := by
  unfold createTask at h
  cases hd : dates.find? validateDate with
  | none =>
    rw [hd] at h
    exact absurd h (by simp)
  | some d =>
    rw [hd] at h
    injection h with h
    exact ⟨d, rfl, List.find?_some hd, h.symm⟩

theorem updateFirst_map_eq {α β : Type} {p : α → Bool} {f : α → α} (g : α → β)
    (hg : ∀ x, g (f x) = g x) : ∀ l : List α, (updateFirst p f l).map g = l.map g := by
  intro l
  induction l with
  | nil => rfl
  | cons x xs ih =>
    rw [updateFirst]
    split
    · rw [List.map_cons, List.map_cons, hg]
    · rw [List.map_cons, List.map_cons, ih]

theorem editFields_id (nt nd : Str) (cc pc : Int) (ndate : Str) (sc : Int) (t : Task) :
    (editFields nt nd cc pc ndate sc t).id = t.id := rfl

theorem deleteTask_fst_tasks (m : Manager) (i : Int) :
    (deleteTask m i).1.tasks = m.tasks.filter (fun t => !(t.id == i)) := rfl

theorem deleteTask_fst_nextId (m : Manager) (i : Int) :
    (deleteTask m i).1.nextId = m.nextId := rfl

theorem deleteTask_snd_true {m : Manager} {i : Int} (h : (deleteTask m i).2 = true) :
    ∃ t ∈ m.tasks, t.id = i := by
  have h' : m.tasks.any (fun t => t.id == i) = true := h
  obtain ⟨t, ht, he⟩ := List.any_eq_true.mp h'
  exact ⟨t, ht, by simpa using he⟩

/-! ### Sequences of creates: ids are 1, 2, 3, ... -/

theorem runCreates_spec :
    ∀ {inputs : List CreateInput} {m m' : Manager},
      runCreates m inputs = some m' →
      m'.nextId = m.nextId + inputs.length ∧
      m'.tasks.map Task.id = m.tasks.map Task.id
        ++ (List.range inputs.length).map (fun (k : Nat) => m.nextId + (k : Int)) := by
  intro inputs
  induction inputs with
  | nil =>
    intro m m' h
    injection h with h
    subst h
    simp
  | cons inp inputs ih =>
    intro m m' h
    rw [runCreates] at h
    cases hc : createTask m inp.title inp.description inp.catChoice inp.priChoice inp.dates with
    | none =>
      rw [hc] at h
      exact absurd h (by simp)
    | some mNew =>
      rw [hc] at h
      obtain ⟨d, _, _, hshape⟩ := createTask_some hc
      obtain ⟨ihni, ihmap⟩ := ih h
      subst hshape
      constructor
      · rw [ihni]
        show m.nextId + 1 + (inputs.length : Int) = m.nextId + ((inp :: inputs).length : Int)
        push_cast [List.length_cons]
        ring
      · rw [ihmap]
        show (m.tasks ++ [(⟨m.nextId, inp.title, inp.description, inp.catChoice,
              inp.priChoice, d, 1⟩ : Task)]).map Task.id
            ++ (List.range inputs.length).map (fun (k : Nat) => m.nextId + 1 + (k : Int))
          = m.tasks.map Task.id
            ++ (List.range (inputs.length + 1)).map (fun (k : Nat) => m.nextId + (k : Int))
        rw [List.map_append, List.append_assoc]
        congr 1
        show [(m.nextId : Int)] ++ (List.range inputs.length).map (fun (k : Nat) => m.nextId + 1 + (k : Int))
          = (List.range (inputs.length + 1)).map (fun (k : Nat) => m.nextId + (k : Int))
        rw [List.range_succ_eq_map, List.map_cons, List.map_map]
        simp only [List.singleton_append, Nat.cast_zero, add_zero]
        congr 1
        apply List.map_congr_left
        intro k _
        simp only [Function.comp_apply]
        push_cast
        ring

/-! ### Invariant: every stored id is below `nextId` -/

def invIds (m : Manager) : Prop := ∀ t ∈ m.tasks, t.id < m.nextId

theorem invIds_fresh : invIds freshManager := by
  intro t ht
  exact absurd ht (List.not_mem_nil t)

theorem invIds_create {m m' : Manager} {title description : Str} {cc pc : Int}
    {dates : List Str} (h : createTask m title description cc pc dates = some m')
    (hm : invIds m) : invIds m' := by
  obtain ⟨d, _, _, hshape⟩ := createTask_some h
  subst hshape
  intro t ht
  rcases List.mem_append.mp ht with h1 | h2
  · have := hm t h1
    show t.id < m.nextId + 1
    omega
  · rw [List.mem_singleton] at h2
    subst h2
    show m.nextId < m.nextId + 1
    omega

theorem invIds_edit (m : Manager) (i : Int) (nt nd : Str) (cc pc : Int)
    (ndate : Str) (sc : Int) (hm : invIds m) :
    invIds (editTask m i nt nd cc pc ndate sc).1 := by
  unfold editTask
  split
  · intro t ht
    have hmap : ((updateFirst (fun t => t.id == i)
        (editFields nt nd cc pc ndate sc) m.tasks).map Task.id)
        = m.tasks.map Task.id :=
      updateFirst_map_eq Task.id (editFields_id nt nd cc pc ndate sc) m.tasks
    have : t.id ∈ m.tasks.map Task.id := by
      rw [← hmap]
      exact List.mem_map_of_mem Task.id ht
    obtain ⟨u, hu, he⟩ := List.mem_map.mp this
    rw [← he]
    exact hm u hu
  · exact hm

theorem invIds_delete (m : Manager) (i : Int) (hm : invIds m) :
    invIds (deleteTask m i).1 := by
  intro t ht
  rw [deleteTask_fst_tasks] at ht
  rw [deleteTask_fst_nextId]
  exact hm t (List.mem_of_mem_filter ht)

theorem invIds_load {m m' : Manager} {content : Str}
    (h : loadTasks m content = some m') : invIds m' := by
  unfold loadTasks at h
  cases hp : parseLines ((getlineTokens '\n' content).filter (fun l => !l.isEmpty)) with
  | none =>
    rw [hp] at h
    exact absurd h (by simp)
  | some ts =>
    rw [hp] at h
    injection h with h
    subst h
    intro t ht
    have := id_le_maxIdFold (show t ∈ ts from ht)
    show t.id < maxIdFold ts + 1
    omega

theorem applyOp_invIds {m m' : Manager} {op : Op} (h : applyOp m op = some m')
    (hm : invIds m) : invIds m' := by
  cases op with
  | create t d c p ds => exact invIds_create h hm
  | edit i nt nd cc pc ndate sc =>
    injection h with h
    subst h
    exact invIds_edit m i nt nd cc pc ndate sc hm
  | del i =>
    injection h with h
    subst h
    exact invIds_delete m i hm
  | save =>
    injection h with h
    subst h
    exact hm
  | load content => exact @invIds_load m m' content h

theorem applyOp_nextId_mono {m m' : Manager} {op : Op} (h : applyOp m op = some m')
    (hop : isLoad op = false) : m.nextId ≤ m'.nextId := by
  cases op with
  | create t d c p ds =>
    obtain ⟨_, _, _, hshape⟩ := createTask_some h
    subst hshape
    show m.nextId ≤ m.nextId + 1
    omega
  | edit i nt nd cc pc ndate sc =>
    injection h with h
    subst h
    unfold editTask
    split <;> exact le_refl _
  | del i =>
    injection h with h
    subst h
    rw [deleteTask_fst_nextId]
  | save =>
    injection h with h
    subst h
    exact le_refl _
  | load content => exact absurd hop (by simp [isLoad])

theorem runOps_invIds :
    ∀ {ops : List Op} {m m' : Manager}, runOps m ops = some m' → invIds m → invIds m' := by
  intro ops
  induction ops with
  | nil =>
    intro m m' h hm
    injection h with h
    subst h
    exact hm
  | cons op ops ih =>
    intro m m' h hm
    rw [runOps] at h
    cases ha : applyOp m op with
    | none =>
      rw [ha] at h
      exact absurd h (by simp)
    | some mNew =>
      rw [ha] at h
      exact ih h (applyOp_invIds ha hm)

theorem runOps_nextId_mono :
    ∀ {ops : List Op} {m m' : Manager}, runOps m ops = some m' →
      (∀ op ∈ ops, isLoad op = false) → m.nextId ≤ m'.nextId := by
  intro ops
  induction ops with
  | nil =>
    intro m m' h _
    injection h with h
    subst h
    exact le_refl _
  | cons op ops ih =>
    intro m m' h hops
    rw [runOps] at h
    cases ha : applyOp m op with
    | none =>
      rw [ha] at h
      exact absurd h (by simp)
    | some mNew =>
      rw [ha] at h
      exact le_trans (applyOp_nextId_mono ha (hops op (List.mem_cons_self op ops)))
        (ih h (fun o ho => hops o (List.mem_cons_of_mem op ho)))

/-! ### Concrete instances used by witnesses and counterexamples -/

/-- A due date accepted by `validateDate`. -/
def dateOK : Str := "2024-01-01".toList

/-- A record whose due date contains the separator (the title and the
description are clean). -/
def pipeDateTask : Task := ⟨0, "t".toList, "d".toList, 1, 1, "a|b".toList, 1⟩

/-- A record whose title contains the separator. -/
def pipeTitleTask : Task := ⟨0, "a|b".toList, [], 1, 1, dateOK, 1⟩

/-- A clean record with in-range enum values. -/
def plainTask : Task := ⟨0, "t".toList, "d".toList, 1, 2, dateOK, 3⟩

/-- A record whose title contains a newline (and no pipe). -/
def nlTitleTask : Task := ⟨1, ('a' :: '\n' :: ['b']), [], 1, 1, dateOK, 1⟩

/-- A store holding the newline-titled record. -/
def nlManager : Manager := ⟨[nlTitleTask], 2⟩

/-- A store holding two clean records. -/
def PlainManager2 : Manager := ⟨[⟨1, "a".toList, [], 1, 1, dateOK, 1⟩, ⟨2, "b".toList, "x".toList, 2, 3, dateOK, 2⟩], 3⟩

/-- A three-line file whose records carry ids 2, 5, 1. -/
def content251 : Str :=
  "2|a||Work|Low|2024-01-01|Pending\n5|b||Work|Low|2024-01-01|Pending\n1|c||Work|Low|2024-01-01|Pending\n".toList

/-- The store produced by loading `content251`. -/
def M251 : Manager :=
  ⟨[⟨2, "a".toList, [], 1, 1, dateOK, 1⟩, ⟨5, "b".toList, [], 1, 1, dateOK, 1⟩,
    ⟨1, "c".toList, [], 1, 1, dateOK, 1⟩], 6⟩

/-- A one-line file whose record carries the negative id `-5`. -/
def contentNeg : Str := "-5|x|y|Work|Low|2024-01-01|Pending".toList

/-! ### Claims -/

/-- Claim C1 (corrected).  Round-trip law: `deserialize (serialize t) = some t`
holds for every record whose title, description, AND due date are free of
the `'|'` separator and whose category/priority/status hold in-range
enumerated values (the spec's data model guarantees the latter); newlines
in the text fields are harmless for this in-memory round trip, since
`deserialize` splits only on `'|'`, so no newline hypotheses are needed.
And the law indeed fails for a record whose title contains `'|'`.  The
original claim, which constrained only title and description, is refuted
by `C1_counterexample`: the unconstrained `dueDate` field passes through
the same unescaped format. -/
theorem C1_roundtrip_amended (t : Task)
    (ht : ∀ c ∈ t.title, c ≠ '|')
    (hd : ∀ c ∈ t.description, c ≠ '|')
    (hdd : ∀ c ∈ t.dueDate, c ≠ '|')
    (hc1 : 1 ≤ t.category) (hc2 : t.category ≤ 3)
    (hp1 : 1 ≤ t.priority) (hp2 : t.priority ≤ 3)
    (hs1 : 1 ≤ t.status) (hs2 : t.status ≤ 3) :
    deserialize (serialize t) = some t ∧
    deserialize (serialize pipeTitleTask) ≠ some pipeTitleTask :=
  ⟨deserialize_serialize t ht hd hdd hc1 hc2 hp1 hp2 hs1 hs2, by decide⟩

/-- Witness for C1: the round trip at a concrete clean record. -/
theorem C1_witness :
    deserialize (serialize plainTask) = some plainTask ∧
    deserialize (serialize pipeTitleTask) ≠ some pipeTitleTask :=
  C1_roundtrip_amended plainTask (by decide) (by decide) (by decide)
    (by decide) (by decide) (by decide) (by decide) (by decide) (by decide)

/-- Counterexample to C1 as stated: `pipeDateTask` has pipe-free and
newline-free title and description, yet the round trip fails, because its
due date `"a|b"` contains the separator. -/
theorem C1_counterexample :
    (∀ c ∈ pipeDateTask.title, c ≠ '|' ∧ c ≠ '\n') ∧
    (∀ c ∈ pipeDateTask.description, c ≠ '|' ∧ c ≠ '\n') ∧
    deserialize (serialize pipeDateTask) ≠ some pipeDateTask := by
  decide

/-- Claim C2 (corrected).  Saving a store and loading the written contents
restores the collection order-preservingly, for records whose title,
description and due date are free of `'|'` AND of newline and whose enum
fields are in range.  The original claim constrained only `'|'` in
title/description; `C2_counterexample` refutes it with a newline inside a
title, which splits one record across two file lines and makes the load
abort. -/
theorem C2_save_load_amended (m m₂ : Manager) (h : ∀ t ∈ m.tasks, goodFields t) :
    ∃ m', loadTasks m₂ (saveContent m.tasks) = some m' ∧ m'.tasks = m.tasks :=
  ⟨⟨m.tasks, maxIdFold m.tasks + 1⟩, loadTasks_saveContent h m₂, rfl⟩

/-- Witness for C2: a concrete two-record store survives save-then-load. -/
theorem C2_witness :
    ∃ m', loadTasks freshManager (saveContent PlainManager2.tasks) = some m' ∧
      m'.tasks = PlainManager2.tasks :=
  C2_save_load_amended PlainManager2 freshManager (by decide)

/-- Counterexample to C2 as stated: every record of `nlManager` has
pipe-free title and description, yet save-then-load does not reproduce the
collection — the load aborts, because the newline inside the title starts
a new file line whose first field is not numeric. -/
theorem C2_counterexample :
    (∀ t ∈ nlManager.tasks, (∀ c ∈ t.title, c ≠ '|') ∧ ∀ c ∈ t.description, c ≠ '|') ∧
    loadTasks freshManager (saveContent nlManager.tasks) = none := by
  decide

/-- Claim C3 (corrected).  A successful load is determined by the file
contents alone (the prior in-memory collection is replaced, nothing is
appended), and the resulting `nextId` is `1 + max(0, ids of the loaded
records)` — the fold starts at `0`, so `nextId` is `1 + max(ids)` only
when some id is nonnegative.  The original claim's formula
`1 + max(ids)` for every file is refuted by `C3_counterexample` (a file
whose only record has id `-5` yields `nextId = 1`, not `-4`).  The
exemplar (ids 2, 5, 1 give `nextId = 6`) is checked by `C3_witness`. -/
theorem C3_load_amended (m₁ m₂ : Manager) (content : Str) (m' : Manager)
    (h : loadTasks m₁ content = some m') :
    loadTasks m₂ content = some m' ∧
    m'.nextId = max 0 ((m'.tasks.map Task.id).foldl max 0) + 1 := by
  constructor
  · exact h
  · unfold loadTasks at h
    cases hp : parseLines ((getlineTokens '\n' content).filter (fun l => !l.isEmpty)) with
    | none =>
      rw [hp] at h
      exact absurd h (by simp)
    | some ts =>
      rw [hp] at h
      injection h with h
      subst h
      show maxIdFold ts + 1 = max 0 ((ts.map Task.id).foldl max 0) + 1
      rw [maxIdFold_eq_foldl_max]
      have h0 : (0 : Int) ≤ (ts.map Task.id).foldl max 0 := le_foldl_max_self _ 0
      omega

/-- Witness for C3: loading the ids-2,5,1 file into two different prior
stores yields the same store with `nextId = 6`. -/
theorem C3_witness :
    loadTasks (⟨[], 99⟩ : Manager) content251 = some M251 ∧ M251.nextId = 6 ∧
    M251.nextId = max 0 ((M251.tasks.map Task.id).foldl max 0) + 1 :=
  ⟨(C3_load_amended freshManager ⟨[], 99⟩ content251 M251 (by decide)).1, by decide,
    (C3_load_amended freshManager freshManager content251 M251 (by decide)).2⟩

/-- Counterexample to C3 as stated: a file whose single record has id `-5`
loads with `nextId = 1`, not `1 + max(ids) = -4`. -/
theorem C3_counterexample :
    (loadTasks freshManager contentNeg).map (fun m => m.tasks.map Task.id) = some [-5] ∧
    (loadTasks freshManager contentNeg).map Manager.nextId = some 1 ∧
    (1 : Int) ≠ 1 + (-5) := by
  decide

/-- Claim C4 (confirmed).  `createTask` assigns `id = nextId`, increments
`nextId` by one, forces the new record's status to Pending (`1`) — the
operation takes no caller status at all — and appends the record at the
back, leaving every previously stored record unchanged; the stored due
date is one of the supplied attempts, the first that validates. -/
theorem C4_create (m : Manager) (title description : Str) (cc pc : Int)
    (dates : List Str) (m' : Manager)
    (h : createTask m title description cc pc dates = some m') :
    ∃ d, dates.find? validateDate = some d ∧
      m'.tasks = m.tasks ++ [⟨m.nextId, title, description, cc, pc, d, 1⟩] ∧
      m'.nextId = m.nextId + 1 := by
  obtain ⟨d, hfind, _, hshape⟩ := createTask_some h
  subst hshape
  exact ⟨d, hfind, rfl, rfl⟩

/-- Witness for C4 at a concrete store and inputs. -/
theorem C4_witness :
    ∃ d, ["bad".toList, dateOK].find? validateDate = some d ∧
      (⟨PlainManager2.tasks ++ [⟨3, "n".toList, [], 2, 2, dateOK, 1⟩], 4⟩ : Manager).tasks
        = PlainManager2.tasks ++ [⟨PlainManager2.nextId, "n".toList, [], 2, 2, d, 1⟩] ∧
      (⟨PlainManager2.tasks ++ [⟨3, "n".toList, [], 2, 2, dateOK, 1⟩], 4⟩ : Manager).nextId
        = PlainManager2.nextId + 1 :=
  C4_create PlainManager2 "n".toList [] 2 2 ["bad".toList, dateOK] _ (by decide)

/-- Claim C5 (confirmed).  Any sequence of creates on a fresh store that
runs to completion assigns exactly the ids 1, 2, 3, ... in order. -/
theorem C5_ids (inputs : List CreateInput) (m' : Manager)
    (h : runCreates freshManager inputs = some m') :
    m'.tasks.map Task.id = (List.range inputs.length).map (fun (k : Nat) => (k : Int) + 1) := by
  obtain ⟨_, hmap⟩ := runCreates_spec h
  rw [hmap]
  show (List.range inputs.length).map (fun (k : Nat) => (1 : Int) + (k : Int))
    = (List.range inputs.length).map (fun (k : Nat) => (k : Int) + 1)
  apply List.map_congr_left
  intro k _
  ring

/-- Witness for C5: two concrete creates receive ids 1 and 2. -/
theorem C5_witness :
    (⟨[⟨1, "a".toList, [], 1, 1, dateOK, 1⟩, ⟨2, "b".toList, [], 2, 2, dateOK, 1⟩], 3⟩
        : Manager).tasks.map Task.id
      = (List.range ([⟨"a".toList, [], 1, 1, [dateOK]⟩,
          ⟨"b".toList, [], 2, 2, [dateOK]⟩] : List CreateInput).length).map
          (fun (k : Nat) => (k : Int) + 1) :=
  C5_ids [⟨"a".toList, [], 1, 1, [dateOK]⟩, ⟨"b".toList, [], 2, 2, [dateOK]⟩] _ (by decide)

/-- On a nonempty input that does not end in the delimiter, no failing
`getline` ever erases its target. -/
theorem erasesAtEnd_eq_false {s : Str} (h1 : s ≠ []) (h2 : s.getLast? ≠ some '|') :
    erasesAtEnd s = false := by
  unfold erasesAtEnd
  rw [beq_eq_false_iff_ne.mpr h2]
  cases s with
  | nil => exact absurd rfl h1
  | cons x xs => rfl

/-- Claim C6 (corrected).  `deserialize` reads the `'|'`-separated fields
of the line in the fixed order id/title/description/category/priority/
dueDate/status and fails exactly when `stoi` finds no leading integer in
the id field; but it does NOT require exactly 7 fields: fields beyond the
seventh are ignored, and a short line IS accepted as a record (refuting
the original claim, see `C6_counterexample`).  On a short line the string
members keep the constructor's empty strings, while the enum fields apply
`stringToX` to the stale contents of the reused `token` variable (the id
field's text, since the failed `getline`s leave it untouched), so any
unrecognized stale text yields the LAST enum values Urgent/High/Completed. -/
theorem C6_deserialize_amended (fs : List Str) (hne : fs ≠ [])
    (hl : fs.getLast? ≠ some []) (hp : ∀ f ∈ fs, ∀ x ∈ f, x ≠ '|') :
    deserialize (joinPipe fs)
      = match stoi (fs.headD []) with
        | none => none
        | some n => some ⟨n, fs.getD 1 [], fs.getD 2 [],
            stringToCategory (catTok fs false), stringToPriority (priTok fs false),
            fs.getD 5 [], stringToStatus (statTok fs false)⟩ := by
  unfold deserialize
  rw [getlineTokens_joinPipe hne hl hp,
    erasesAtEnd_eq_false (joinPipe_ne_nil_getLast hne hl hp).1
      (joinPipe_ne_nil_getLast hne hl hp).2]

/-- Witness for C6: the two-field line `"5|hello"` parses into an
accepted record whose enum fields come from the stale `"5"` token
(Urgent/High/Completed), and a line with a non-numeric id field fails. -/
theorem C6_witness :
    deserialize (joinPipe ["5".toList, "hello".toList])
        = some ⟨5, "hello".toList, [], 3, 3, [], 3⟩ ∧
    deserialize (joinPipe ["x9".toList, "hello".toList]) = none := by
  rw [C6_deserialize_amended ["5".toList, "hello".toList] (by decide) (by decide) (by decide),
    C6_deserialize_amended ["x9".toList, "hello".toList] (by decide) (by decide) (by decide)]
  decide

/-- Counterexample to C6 as stated: the line `"5|hello"` yields only 2
fields yet IS accepted as a record — with the enum fields set to
Urgent/High/Completed (3/3/3) by the stale `token` contents `"5"`. -/
theorem C6_counterexample :
    (getlineTokens '|' "5|hello".toList).length ≠ 7 ∧
    deserialize "5|hello".toList = some ⟨5, "hello".toList, [], 3, 3, [], 3⟩ := by
  decide

/-- Claim C7 (corrected).  During EDIT, an out-of-range category, priority
or status choice is silently ignored and every record keeps its prior
value.  But during CREATE the raw category and priority choices are stored
unvalidated (`static_cast` with no range check), so a record CAN store an
out-of-range category or priority — refuting the original claim's "no
record ever stores an out-of-range value" (see `C7_counterexample`). -/
theorem C7_guards_amended (m : Manager) (i : Int) (nt nd : Str) (cc pc : Int)
    (ndate : Str) (sc : Int) :
    (¬(1 ≤ cc ∧ cc ≤ 3) →
      (editTask m i nt nd cc pc ndate sc).1.tasks.map Task.category
        = m.tasks.map Task.category) ∧
    (¬(1 ≤ pc ∧ pc ≤ 3) →
      (editTask m i nt nd cc pc ndate sc).1.tasks.map Task.priority
        = m.tasks.map Task.priority) ∧
    (¬(1 ≤ sc ∧ sc ≤ 3) →
      (editTask m i nt nd cc pc ndate sc).1.tasks.map Task.status
        = m.tasks.map Task.status) ∧
    ∀ (title description : Str) (dates : List Str) (m' : Manager),
      createTask m title description cc pc dates = some m' →
      m'.tasks.map Task.category = m.tasks.map Task.category ++ [cc] ∧
      m'.tasks.map Task.priority = m.tasks.map Task.priority ++ [pc] := by
  refine ⟨?_, ?_, ?_, ?_⟩
  · intro hcc
    unfold editTask
    split
    · show (updateFirst (fun t => t.id == i)
          (editFields nt nd cc pc ndate sc) m.tasks).map Task.category
        = m.tasks.map Task.category
      exact updateFirst_map_eq Task.category (fun t => by simp [editFields, hcc]) m.tasks
    · rfl
  · intro hpc
    unfold editTask
    split
    · show (updateFirst (fun t => t.id == i)
          (editFields nt nd cc pc ndate sc) m.tasks).map Task.priority
        = m.tasks.map Task.priority
      exact updateFirst_map_eq Task.priority (fun t => by simp [editFields, hpc]) m.tasks
    · rfl
  · intro hsc
    unfold editTask
    split
    · show (updateFirst (fun t => t.id == i)
          (editFields nt nd cc pc ndate sc) m.tasks).map Task.status
        = m.tasks.map Task.status
      exact updateFirst_map_eq Task.status (fun t => by simp [editFields, hsc]) m.tasks
    · rfl
  · intro title description dates m' h
    obtain ⟨d, _, _, hshape⟩ := createTask_some h
    subst hshape
    constructor <;> simp

/-- A store with one record whose fields are all in range. -/
def M7 : Manager := ⟨[⟨1, "x".toList, [], 2, 2, dateOK, 2⟩], 2⟩

/-- Witness for C7: out-of-range choices 0, 9 and 7 leave the edited
store's category, priority and status columns unchanged, while a create
with raw choices 0 and 9 stores them. -/
theorem C7_witness :
    ((editTask M7 1 [] [] 0 9 [] 7).1.tasks.map Task.category
      = M7.tasks.map Task.category) ∧
    ((editTask M7 1 [] [] 0 9 [] 7).1.tasks.map Task.priority
      = M7.tasks.map Task.priority) ∧
    ((editTask M7 1 [] [] 0 9 [] 7).1.tasks.map Task.status
      = M7.tasks.map Task.status) ∧
    ((⟨M7.tasks ++ [⟨2, "y".toList, [], 0, 9, dateOK, 1⟩], 3⟩ : Manager).tasks.map Task.category
      = M7.tasks.map Task.category ++ [0]) ∧
    ((⟨M7.tasks ++ [⟨2, "y".toList, [], 0, 9, dateOK, 1⟩], 3⟩ : Manager).tasks.map Task.priority
      = M7.tasks.map Task.priority ++ [9]) := by
  obtain ⟨h1, h2, h3, h4⟩ := C7_guards_amended M7 1 [] [] 0 9 [] 7
  have hc := h4 "y".toList [] [dateOK]
    ⟨M7.tasks ++ [⟨2, "y".toList, [], 0, 9, dateOK, 1⟩], 3⟩ (by decide)
  exact ⟨h1 (by decide), h2 (by decide), h3 (by decide), hc.1, hc.2⟩

/-- The store produced by a create with raw choices 7 and 9. -/
def M7bad : Manager := ⟨[⟨1, "a".toList, "b".toList, 7, 9, dateOK, 1⟩], 2⟩

/-- Counterexample to C7 as stated: a create with category choice 7 and
priority choice 9 succeeds and the stored record holds those out-of-range
values. -/
theorem C7_counterexample :
    createTask freshManager "a".toList "b".toList 7 9 [dateOK] = some M7bad ∧
    M7bad.tasks.map Task.category = [7] ∧
    M7bad.tasks.map Task.priority = [9] ∧
    ¬((7 : Int) ≤ 3) ∧ ¬((9 : Int) ≤ 3) := by
  decide

/-- Claim C8 (corrected).  In any operation sequence from a fresh store
WITHOUT a load after the delete, a deleted id is never assigned again by a
later create: every stored id stays below `nextId`, `nextId` never
decreases under create/edit/delete/save, and a create assigns exactly
`nextId`.  The original claim, which allowed save and load in the
sequence, is refuted by `C8_counterexample`: load recomputes `nextId` from
the file, which can lower it past a previously deleted id. -/
theorem C8_no_reuse_amended (ops1 : List Op) (m1 : Manager) (i : Int)
    (ops2 : List Op) (m3 : Manager) (title description : Str) (cc pc : Int)
    (dates : List Str) (m4 : Manager)
    (h1 : runOps freshManager ops1 = some m1)
    (hdel : (deleteTask m1 i).2 = true)
    (hops2 : ∀ op ∈ ops2, isLoad op = false)
    (h2 : runOps (deleteTask m1 i).1 ops2 = some m3)
    (h3 : createTask m3 title description cc pc dates = some m4) :
    m3.nextId ≠ i ∧ m4.tasks.getLast?.map Task.id = some m3.nextId ∧
    m4.tasks.getLast?.map Task.id ≠ some i := by
  have hinv1 : invIds m1 := runOps_invIds h1 invIds_fresh
  obtain ⟨t, ht, hti⟩ := deleteTask_snd_true hdel
  have hi : i < m1.nextId := hti ▸ hinv1 t ht
  have hmono := runOps_nextId_mono h2 hops2
  rw [deleteTask_fst_nextId] at hmono
  obtain ⟨d, _, _, hshape⟩ := createTask_some h3
  subst hshape
  refine ⟨by omega, ?_, ?_⟩
  · show ((m3.tasks ++ [(⟨m3.nextId, title, description, cc, pc, d, 1⟩ : Task)]).getLast?).map Task.id
      = some m3.nextId
    rw [List.getLast?_concat]
    rfl
  · show ((m3.tasks ++ [(⟨m3.nextId, title, description, cc, pc, d, 1⟩ : Task)]).getLast?).map Task.id
      ≠ some i
    rw [List.getLast?_concat]
    show some m3.nextId ≠ some i
    intro he
    injection he with he
    omega

/-- Intermediate stores of the C8 witness scenario. -/
def M8w1 : Manager := ⟨[⟨1, "a".toList, [], 1, 1, dateOK, 1⟩], 2⟩

/-- The C8 witness store after deleting id 1. -/
def M8w3 : Manager := ⟨[], 2⟩

/-- The C8 witness store after the final create. -/
def M8w4 : Manager := ⟨[⟨2, "b".toList, [], 1, 1, dateOK, 1⟩], 3⟩

/-- Witness for C8: create, delete id 1, create again — the new id is 2,
not the deleted 1. -/
theorem C8_witness :
    M8w3.nextId ≠ 1 ∧ M8w4.tasks.getLast?.map Task.id = some M8w3.nextId ∧
    M8w4.tasks.getLast?.map Task.id ≠ some 1 :=
  C8_no_reuse_amended [Op.create "a".toList [] 1 1 [dateOK]] M8w1 1 [] M8w3
    "b".toList [] 1 1 [dateOK] M8w4 (by decide) (by decide) (by decide)
    (by decide) (by decide)

/-- The store after two creates (C8 counterexample). -/
def M8a : Manager :=
  ⟨[⟨1, "a".toList, [], 1, 1, dateOK, 1⟩, ⟨2, "b".toList, [], 1, 1, dateOK, 1⟩], 3⟩

/-- The file written by save after deleting id 2 (C8 counterexample). -/
def c8content : Str := saveContent [⟨1, "a".toList, [], 1, 1, dateOK, 1⟩]

/-- The store after save and load (C8 counterexample): `nextId` dropped
back to 2. -/
def M8b : Manager := ⟨[⟨1, "a".toList, [], 1, 1, dateOK, 1⟩], 2⟩

/-- The store after the final create (C8 counterexample): the new record
received the previously deleted id 2. -/
def M8c : Manager :=
  ⟨[⟨1, "a".toList, [], 1, 1, dateOK, 1⟩, ⟨2, "c".toList, [], 1, 1, dateOK, 1⟩], 3⟩

/-- Counterexample to C8 as stated: create ids 1 and 2, delete id 2, save,
load the written file (recomputing `nextId = 2`), create again — the new
record is assigned the previously deleted id 2. -/
theorem C8_counterexample :
    runOps freshManager [Op.create "a".toList [] 1 1 [dateOK],
        Op.create "b".toList [] 1 1 [dateOK]] = some M8a ∧
    (deleteTask M8a 2).2 = true ∧
    c8content = saveContent (deleteTask M8a 2).1.tasks ∧
    runOps (deleteTask M8a 2).1 [Op.save, Op.load c8content] = some M8b ∧
    createTask M8b "c".toList [] 1 1 [dateOK] = some M8c ∧
    M8c.tasks.getLast?.map Task.id = some 2 := by
  decide

/-! ### Delete helpers for C9 -/

theorem filter_keep_all {l : List Task} {i : Int} (h : ∀ x ∈ l, x.id ≠ i) :
    l.filter (fun t => !(t.id == i)) = l :=
  List.filter_eq_self.mpr (fun x hx => by simp [h x hx])

theorem any_id_eq_false {l : List Task} {i : Int} (h : ∀ x ∈ l, x.id ≠ i) :
    l.any (fun t => t.id == i) = false := by
  rw [Bool.eq_false_iff]
  intro hc
  obtain ⟨x, hx, he⟩ := List.any_eq_true.mp hc
  exact h x hx (by simpa using he)

/-- Claim C9 (confirmed).  On a store that holds exactly one record with
id `i` (here: `pre ++ t :: post` with `t` the unique carrier of `i`),
delete removes exactly that record, keeps all others in their original
order, shrinks the collection by one, and a second delete of `i` reports
not-found and leaves the collection unchanged. -/
theorem C9_delete (pre post : List Task) (t : Task) (i nid : Int)
    (ht : t.id = i) (hpre : ∀ x ∈ pre, x.id ≠ i) (hpost : ∀ x ∈ post, x.id ≠ i) :
    deleteTask ⟨pre ++ t :: post, nid⟩ i = (⟨pre ++ post, nid⟩, true) ∧
    (pre ++ post).length + 1 = (pre ++ t :: post).length ∧
    deleteTask ⟨pre ++ post, nid⟩ i = (⟨pre ++ post, nid⟩, false) := by
  have hdrop : (!(t.id == i)) = false := by simp [ht]
  have hkeep1 : (pre ++ t :: post).filter (fun x => !(x.id == i)) = pre ++ post := by
    rw [List.filter_append, filter_keep_all hpre, List.filter_cons, hdrop,
      filter_keep_all hpost]
    simp
  have hany1 : (pre ++ t :: post).any (fun x => x.id == i) = true := by
    rw [List.any_append, List.any_cons]
    simp [ht]
  have hboth : ∀ x ∈ pre ++ post, x.id ≠ i := by
    intro x hx
    rcases List.mem_append.mp hx with h1 | h2
    · exact hpre x h1
    · exact hpost x h2
  refine ⟨?_, ?_, ?_⟩
  · show ((⟨(pre ++ t :: post).filter (fun x => !(x.id == i)), nid⟩ : Manager),
      (pre ++ t :: post).any (fun x => x.id == i)) = ((⟨pre ++ post, nid⟩ : Manager), true)
    rw [hkeep1, hany1]
  · simp only [List.length_append, List.length_cons]
    omega
  · show ((⟨(pre ++ post).filter (fun x => !(x.id == i)), nid⟩ : Manager),
      (pre ++ post).any (fun x => x.id == i)) = ((⟨pre ++ post, nid⟩ : Manager), false)
    rw [filter_keep_all hboth, any_id_eq_false hboth]

/-- Records of the C9 witness store. -/
def t9a : Task := ⟨1, "a".toList, [], 1, 1, dateOK, 1⟩

/-- The id-2 record of the C9 witness store. -/
def t9b : Task := ⟨2, "b".toList, [], 1, 1, dateOK, 1⟩

/-- The id-3 record of the C9 witness store. -/
def t9c : Task := ⟨3, "c".toList, [], 1, 1, dateOK, 1⟩

/-- Witness for C9 on a concrete three-record store. -/
theorem C9_witness :
    deleteTask ⟨[t9a] ++ t9b :: [t9c], 4⟩ 2 = (⟨[t9a] ++ [t9c], 4⟩, true) ∧
    ([t9a] ++ [t9c]).length + 1 = ([t9a] ++ t9b :: [t9c]).length ∧
    deleteTask ⟨[t9a] ++ [t9c], 4⟩ 2 = (⟨[t9a] ++ [t9c], 4⟩, false) :=
  C9_delete [t9a] [t9c] t9b 2 4 (by decide) (by decide) (by decide)

/-- A two-line file whose records both carry id 1. -/
def dupContent : Str :=
  "1|a||Work|Low|2024-01-01|Pending\n1|b||Work|Low|2024-01-01|Pending\n".toList

/-- The store produced by loading `dupContent`: two distinct records with
the same id. -/
def Mdup : Manager :=
  ⟨[⟨1, "a".toList, [], 1, 1, dateOK, 1⟩, ⟨1, "b".toList, [], 1, 1, dateOK, 1⟩], 2⟩

/-- Claim C10 (confirmed).  Load enforces no id uniqueness: a file with
two well-formed lines sharing id 1 loads successfully into two distinct
records with that id, and deleting id 1 then removes BOTH records, not
just the first. -/
theorem C10_dup_ids :
    loadTasks freshManager dupContent = some Mdup ∧
    Mdup.tasks.map Task.id = [1, 1] ∧
    Mdup.tasks.get? 0 ≠ Mdup.tasks.get? 1 ∧
    (deleteTask Mdup 1).2 = true ∧
    (deleteTask Mdup 1).1.tasks = [] := by
  decide

end TaskMaster
